import Mathlib

/-!
Lectures 2016-2/02 (vectors, structures) and 2016-2/12 (pointers) of hse-cs-prog.

A shallow embedding of the lecture programs and of the growable array they use,
followed by the properties proved about them.

* `std::vector` itself is not part of the repository; the container is modelled
  from the specification (`GrowableArray`), with an allocator that satisfies
  every request. The rejection of an unreasonable request is modelled apart, by
  `reserveChecked` and `sizedChecked`, for the programs that hand the container
  a count read from the input.
* `size_t` is an unsigned integer of `w` bits (the lecture: four or eight
  bytes), `int` is a signed integer of 32 bits.
* Loops are run with fuel; `Outcome.outOfFuel` is kept apart from
  `Outcome.undefined` (undefined behaviour) and from `Outcome.raised` (an
  exception that leaves the program).
-/

namespace HseCsProg

/-! ## Outcomes and machine integers -/

/-- Errors of the specification's taxonomy (section 7). -/
inductive VecError where
  | OutOfRange
  | AllocationFailure
  deriving DecidableEq, Repr

/-- Result of running a piece of a program. -/
inductive Outcome (α : Type) where
  | done (val : α)
  | raised (e : VecError)
  | undefined
  | outOfFuel
  deriving DecidableEq, Repr

/-- Continues with `f` on the value of a finished run; any other outcome is kept. -/
def Outcome.map {α β : Type} (f : α → β) : Outcome α → Outcome β
  | Outcome.done val => Outcome.done (f val)
  | Outcome.raised e => Outcome.raised e
  | Outcome.undefined => Outcome.undefined
  | Outcome.outOfFuel => Outcome.outOfFuel

/-- Smallest value of `int`. -/
def INT_MIN : Int := -2147483648

/-- Largest value of `int`. -/
def INT_MAX : Int := 2147483647

/-- Conversion of an `int` to `size_t` of `w` bits (value modulo `2^w`). -/
def toSizeT (w : Nat) (n : Int) : Nat := (n % (2 : Int) ^ w).toNat

/-- Increment `++i` of a `size_t` of `w` bits. -/
def sizeSucc (w : Nat) (i : Nat) : Nat := (i + 1) % 2 ^ w

/-! ## The growable array -/

/-- Modelled from the spec: `std::vector` is used by the lecture programs but its
code is not in the repository. Section 3 of the specification: `size` live
elements at offsets `[0, size)` of a `storage` of `capacity` slots. -/
structure GrowableArray (T : Type) where
  size : Nat
  capacity : Nat
  storage : List T
  deriving DecidableEq, Repr

namespace GrowableArray

variable {T : Type}

/-- The live elements, front to back. -/
def toList (a : GrowableArray T) : List T := a.storage.take a.size

/-- Data-model invariant: `size ≤ capacity` and the storage has `capacity` slots. -/
def WF (a : GrowableArray T) : Prop := a.size ≤ a.capacity ∧ a.storage.length = a.capacity

/-- Modelled from the spec: the array created empty (`size = 0`, `capacity = 0`),
as `vector<int> v;`. -/
def empty : GrowableArray T := { size := 0, capacity := 0, storage := [] }

/-- Modelled from the spec: the pre-sized array (`size = n`, elements
default-valued), as `vector<int> v(n);`. -/
def sized [Inhabited T] (n : Nat) : GrowableArray T :=
  { size := n, capacity := n, storage := List.replicate n default }

/-- Modelled from the spec: replacement of the storage by one of `c` slots, the
`size` live elements copied in order; the slots beyond them (left unspecified by
the specification) hold the default value. -/
def reallocate [Inhabited T] (a : GrowableArray T) (c : Nat) : GrowableArray T :=
  { size := a.size
    capacity := c
    storage := a.storage.take a.size ++ List.replicate (c - a.size) default }

/-- Modelled from the spec: `reserve(n)` ensures `capacity ≥ n` without changing
`size`; a no-op if `capacity` is already `≥ n`. -/
def reserve [Inhabited T] (a : GrowableArray T) (n : Nat) : GrowableArray T :=
  if a.capacity ≥ n then a else a.reallocate n

/-- Modelled from the spec: growth policy, new capacity `max(1, capacity * 2)`. -/
def grownCapacity (capacity : Nat) : Nat := max 1 (capacity * 2)

/-- Modelled from the spec: `append(value)` (`push_back`): if `size == capacity`
grows the capacity first, then places `value` at offset `size` and increments
`size`. -/
def append [Inhabited T] (a : GrowableArray T) (value : T) : GrowableArray T :=
  let b := if a.size == a.capacity then a.reallocate (grownCapacity a.capacity) else a
  { size := b.size + 1, capacity := b.capacity, storage := b.storage.set b.size value }

/-- Modelled from the spec: `resize(n)` sets `size = n`; if `n > capacity` it
behaves as `reserve(n)` first; the elements at `[old_size, n)` are
default-constructed. -/
def resize [Inhabited T] (a : GrowableArray T) (n : Nat) : GrowableArray T :=
  let b := if n > a.capacity then a.reserve n else a
  { size := n
    capacity := b.capacity
    storage := b.storage.take a.size ++ List.replicate (n - a.size) default
      ++ b.storage.drop (max a.size n) }

/-- Modelled from the spec: checked access `at(index)`, failing with
`OutOfRange` if `index ≥ size`. -/
def «at» [Inhabited T] (a : GrowableArray T) (index : Nat) : Except VecError T :=
  if index ≥ a.size then Except.error VecError.OutOfRange
  else Except.ok (a.storage.getD index default)

/-- Modelled from the spec: unchecked access `operator[]`; `index ≥ size` is a
contract violation (undefined behaviour), `none` here. -/
def index (a : GrowableArray T) (i : Nat) : Option T :=
  if i < a.size then a.storage[i]? else none

/-- Modelled from the spec: construction from an initializer list
(`vector<int> v = {1, 2, 3};`), which the specification does not describe: the
listed values are appended to an empty array. For five values this gives
capacity 8, the value the lecture expects (02.cpp:125). -/
def fromList [Inhabited T] (l : List T) : GrowableArray T :=
  l.foldl append empty

/-- Modelled from the spec: assignment through the unchecked `operator[]`
("indexed assignment"); `index ≥ size` is a contract violation, `none` here. -/
def assign (a : GrowableArray T) (i : Nat) (value : T) : Option (GrowableArray T) :=
  if i < a.size then some { a with storage := a.storage.set i value } else none

/-- Modelled from the spec: the edge case of section 4.1, "negative or
unreasonable size/capacity requests must fail explicitly", for `reserve(n)`: a
request for more than `maxSize` elements is refused with an error of section 7,
any other request is served by `reserve`. `maxSize` is the largest request the
container serves (`max_size()` of `std::vector`); it is a parameter, the
container's code not being in the repository. -/
def reserveChecked [Inhabited T] (maxSize : Nat) (a : GrowableArray T) (n : Nat) :
    Outcome (GrowableArray T) :=
  if n > maxSize then Outcome.raised VecError.AllocationFailure
  else Outcome.done (a.reserve n)

/-- Modelled from the spec: the same edge case for the pre-sized construction
`vector<int> v(n);`. -/
def sizedChecked [Inhabited T] (maxSize : Nat) (n : Nat) : Outcome (GrowableArray T) :=
  if n > maxSize then Outcome.raised VecError.AllocationFailure
  else Outcome.done (sized n)

/-- States of the growable array that a program can reach: the three
constructions, followed by any number of `append`, `reserve` and `resize`. -/
inductive Reachable {T : Type} [Inhabited T] : GrowableArray T → Prop where
  | empty : Reachable empty
  | sized (n : Nat) : Reachable (sized n)
  | fromList (l : List T) : Reachable (fromList l)
  | append (a : GrowableArray T) (value : T) : Reachable a → Reachable (a.append value)
  | reserve (a : GrowableArray T) (n : Nat) : Reachable a → Reachable (a.reserve n)
  | resize (a : GrowableArray T) (n : Nat) : Reachable a → Reachable (a.resize n)

end GrowableArray

/-! ## Lecture 02: reading N numbers and printing them in reverse order -/

/-- The read loop of the naive program, 02.cpp:40-44:
`for (size_t i = 0; i != n; ++i) { int x; cin >> x; v.push_back(x); }`.
`n` is the `int` that was read; the comparison `i != n` converts it to `size_t`.
`input` holds the numbers still to be read from `cin`; when it is exhausted the
extraction leaves the fresh `x` without a value and `push_back(x)` reads it,
which is undefined behaviour. The result is the rest of the input and `v`. -/
def readLoop (w : Nat) : Nat → Int → Nat → List Int → GrowableArray Int →
    Outcome (List Int × GrowableArray Int)
  | 0, _, _, _, _ => Outcome.outOfFuel
  | fuel + 1, n, i, input, v =>
    if i != toSizeT w n then
      match input with
      | [] => Outcome.undefined
      | x :: rest => readLoop w fuel n (sizeSucc w i) rest (v.append x)
    else Outcome.done (input, v)

/-- The print loop of the naive program, 02.cpp:46-48:
`for (int i = n - 1; i >= 0; --i) cout << v[i] << " ";`, started at `i`.
Each printed number is recorded together with the index that was handed to
`v[...]` (the `int` converted to `size_t`); an index outside `[0, size)` is
undefined behaviour. -/
def printLoop (w : Nat) : Nat → GrowableArray Int → Int → Outcome (List (Nat × Int))
  | 0, _, _ => Outcome.outOfFuel
  | fuel + 1, v, i =>
    if i ≥ 0 then
      match v.index (toSizeT w i) with
      | none => Outcome.undefined
      | some x => (printLoop w fuel v (i - 1)).map (fun out => (toSizeT w i, x) :: out)
    else Outcome.done []

/-- The front-to-back loop of 02.cpp:11-12:
`for (size_t i = 0; i != v.size(); ++i) cout << v[i] << " ";`, started at `i`. -/
def forwardLoop (w : Nat) : Nat → GrowableArray Int → Nat → Outcome (List Int)
  | 0, _, _ => Outcome.outOfFuel
  | fuel + 1, v, i =>
    if i != v.size then
      match v.index i with
      | none => Outcome.undefined
      | some x => (forwardLoop w fuel v (sizeSucc w i)).map (fun out => x :: out)
    else Outcome.done []

/-- The naive program, 02.cpp:34-50. `stdin` is the sequence of numbers given on
the input (each an `int`), the result is the sequence of numbers printed. Reading
`n` from an empty input leaves it without a value; `n - 1` overflows for
`n = INT_MIN`. -/
def naiveMain (w fuel : Nat) (stdin : List Int) : Outcome (List Int) :=
  match stdin with
  | [] => Outcome.undefined
  | n :: input =>
    match readLoop w fuel n 0 input GrowableArray.empty with
    | Outcome.done (_, v) =>
      if n - 1 < INT_MIN then Outcome.undefined
      else (printLoop w fuel v (n - 1)).map (fun out => out.map Prod.snd)
    | Outcome.raised e => Outcome.raised e
    | Outcome.undefined => Outcome.undefined
    | Outcome.outOfFuel => Outcome.outOfFuel

/-- The read loop of the program with `reserve`, 02.cpp:84-88: `int x;` is
declared before the loop `for (size_t i = 0; i != n; ++i) { cin >> x;
v.push_back(x); }`. `x` is `none` as long as it has no value; an extraction from
the exhausted input leaves `x` as it was. -/
def reserveReadLoop (w : Nat) : Nat → Int → Nat → Option Int → List Int →
    GrowableArray Int → Outcome (GrowableArray Int)
  | 0, _, _, _, _, _ => Outcome.outOfFuel
  | fuel + 1, n, i, x, input, v =>
    if i != toSizeT w n then
      match input with
      | y :: rest => reserveReadLoop w fuel n (sizeSucc w i) (some y) rest (v.append y)
      | [] =>
        match x with
        | none => Outcome.undefined
        | some y => reserveReadLoop w fuel n (sizeSucc w i) (some y) [] (v.append y)
    else Outcome.done v

/-- The program with `reserve`, 02.cpp:76-89: `int n; cin >> n; vector<int> v;
v.reserve(n);` and the read loop. The call converts the `int` to `size_t`; an
exception of `reserve` is not caught and ends the program. The program prints
nothing; the result is the vector at the end of `main`. -/
def reserveMain (w maxSize fuel : Nat) (stdin : List Int) : Outcome (GrowableArray Int) :=
  match stdin with
  | [] => Outcome.undefined
  | n :: input =>
    match GrowableArray.reserveChecked maxSize GrowableArray.empty (toSizeT w n) with
    | Outcome.done v => reserveReadLoop w fuel n 0 none input v
    | Outcome.raised e => Outcome.raised e
    | Outcome.undefined => Outcome.undefined
    | Outcome.outOfFuel => Outcome.outOfFuel

/-- The read loop of the program with a pre-sized vector, 02.cpp:104-106:
`for (size_t i = 0; i != n; ++i) cin >> v[i];`. `v[i]` outside `[0, size)` is
undefined behaviour; an extraction from the exhausted input leaves `v[i]` as it
was. -/
def fillLoop (w : Nat) : Nat → Int → Nat → List Int → GrowableArray Int →
    Outcome (GrowableArray Int)
  | 0, _, _, _, _ => Outcome.outOfFuel
  | fuel + 1, n, i, input, v =>
    if i != toSizeT w n then
      match input with
      | y :: rest =>
        match v.assign i y with
        | none => Outcome.undefined
        | some v2 => fillLoop w fuel n (sizeSucc w i) rest v2
      | [] =>
        match v.index i with
        | none => Outcome.undefined
        | some _ => fillLoop w fuel n (sizeSucc w i) [] v
    else Outcome.done v

/-- The program with a pre-sized vector, 02.cpp:97-107: `int n; cin >> n;
vector<int> v(n);` and the read loop. The construction converts the `int` to
`size_t`; an exception of the constructor is not caught and ends the program.
The result is the vector at the end of `main`. -/
def sizedMain (w maxSize fuel : Nat) (stdin : List Int) : Outcome (GrowableArray Int) :=
  match stdin with
  | [] => Outcome.undefined
  | n :: input =>
    match GrowableArray.sizedChecked maxSize (toSizeT w n) with
    | Outcome.done v => fillLoop w fuel n 0 input v
    | Outcome.raised e => Outcome.raised e
    | Outcome.undefined => Outcome.undefined
    | Outcome.outOfFuel => Outcome.outOfFuel

/-- Number of appends, among those of the values `l` to `a` one by one, that find
`size == capacity` (growth events), added to `count`. -/
def countGrowth {T : Type} [Inhabited T] : List T → GrowableArray T → Nat → Nat
  | [], _, count => count
  | x :: rest, a, count =>
    countGrowth rest (a.append x) (if a.size == a.capacity then count + 1 else count)

/-- Growth events triggered by appending `N` elements one by one to an initially
empty array of capacity 0. -/
def growthEvents (N : Nat) : Nat :=
  countGrowth (List.replicate N (0 : Int)) GrowableArray.empty 0

/-! ## Lecture 02: dates -/

/-- The structure `Date`, 02.cpp:225-229. -/
structure Date where
  Day : Int
  Month : Int
  Year : Int
  deriving DecidableEq, Repr

/-- The comparison `operator <` of dates, 02.cpp:270-275; `&&` binds tighter
than `||`. -/
def Date.lt (d1 d2 : Date) : Bool :=
  decide (d1.Year < d2.Year)
    || (decide (d1.Year = d2.Year) && decide (d1.Month < d2.Month))
    || (decide (d1.Year = d2.Year) && decide (d1.Month = d2.Month) && decide (d1.Day < d2.Day))

/-! ## Lecture 12: pointers -/

/-- Values of the `int` variables of a program, by address. -/
abbrev Store := Nat → Int

/-- The function `swap(int& a, int& b)`, 12.cpp:58-62; a reference is the address
of the variable it is bound to. -/
def swapRef (s : Store) (a b : Nat) : Store :=
  let c := s a
  let s1 := Function.update s a (s b)
  Function.update s1 b c

/-- The function `swap(int * a, int * b)`, 12.cpp:65-69; `none` is `nullptr`,
whose dereference is undefined behaviour. -/
def swapPtr (s : Store) (a b : Option Nat) : Outcome Store :=
  match a with
  | none => Outcome.undefined
  | some pa =>
    let c := s pa
    match b with
    | none => Outcome.undefined
    | some pb =>
      let s1 := Function.update s pa (s pb)
      Outcome.done (Function.update s1 pb c)

/-- The function `strcpy`, 12.cpp:298-300: `while (*dst++ = *src++);`. The memory
is a sequence of characters, a pointer is an offset into it; a dereference
outside the memory is undefined behaviour. -/
def strcpy : Nat → List Nat → Nat → Nat → Outcome (List Nat)
  | 0, _, _, _ => Outcome.outOfFuel
  | fuel + 1, mem, dst, src =>
    match mem[src]? with
    | none => Outcome.undefined
    | some c =>
      if dst < mem.length then
        if c != 0 then strcpy fuel (mem.set dst c) (dst + 1) (src + 1)
        else Outcome.done (mem.set dst c)
      else Outcome.undefined

/-- The string at `src` has its first character with code 0 at offset `L`. -/
def firstZeroAt (mem : List Nat) (src L : Nat) : Prop :=
  mem[src + L]? = some 0 ∧ ∀ k, k < L → ∃ c, mem[src + k]? = some c ∧ c ≠ 0

/-- Modelled from the spec: the library function `strlen`, called at 12.cpp:289
and absent from the repository: the number of characters before the first one
with code 0. -/
def strlen : Nat → List Nat → Nat → Outcome Nat
  | 0, _, _ => Outcome.outOfFuel
  | fuel + 1, mem, s =>
    match mem[s]? with
    | none => Outcome.undefined
    | some c => if c != 0 then (strlen fuel mem (s + 1)).map (fun len => len + 1)
                else Outcome.done 0

/-- Modelled from the spec: the library algorithm `std::copy(first, last, d)`,
called at 12.cpp:289 and absent from the repository: the characters of
`[first, last)` are assigned front to back to the positions starting at `d`. -/
def copy : Nat → List Nat → Nat → Nat → Nat → Outcome (List Nat)
  | 0, _, _, _, _ => Outcome.outOfFuel
  | fuel + 1, mem, first, last, d =>
    if first != last then
      match mem[first]? with
      | none => Outcome.undefined
      | some c =>
        if d < mem.length then copy fuel (mem.set d c) (first + 1) last (d + 1)
        else Outcome.undefined
    else Outcome.done mem

/-- The call `std::copy(s1, s1 + strlen(s1) + 1, s2)` of 12.cpp:289. -/
def copyWithStrlen (fuel : Nat) (mem : List Nat) (s1 s2 : Nat) : Outcome (List Nat) :=
  match strlen fuel mem s1 with
  | Outcome.done len => copy fuel mem s1 (s1 + len + 1) s2
  | Outcome.raised e => Outcome.raised e
  | Outcome.undefined => Outcome.undefined
  | Outcome.outOfFuel => Outcome.outOfFuel

/-! ## Properties of the growable array -/

namespace GrowableArray

variable {T : Type}

theorem wf_empty : (empty : GrowableArray T).WF := by
  simp [WF, empty]

theorem wf_sized [Inhabited T] (n : Nat) : (sized n : GrowableArray T).WF := by
  simp [WF, sized]

theorem wf_reallocate [Inhabited T] (a : GrowableArray T) (c : Nat) (ha : a.WF)
    (hc : a.size ≤ c) : (a.reallocate c).WF := by
  obtain ⟨h1, h2⟩ := ha
  simp only [WF, reallocate, List.length_append, List.length_take, List.length_replicate]
  omega

theorem toList_reallocate [Inhabited T] (a : GrowableArray T) (c : Nat) (ha : a.WF) :
    (a.reallocate c).toList = a.toList := by
  obtain ⟨h1, h2⟩ := ha
  have hlen : (a.storage.take a.size).length = a.size := by
    rw [List.length_take]; omega
  simp only [toList, reallocate]
  rw [List.take_append_of_le_length (by omega), List.take_take]
  simp

theorem wf_reserve [Inhabited T] (a : GrowableArray T) (n : Nat) (ha : a.WF) :
    (a.reserve n).WF := by
  unfold reserve
  split
  · exact ha
  · exact wf_reallocate a n ha (by have := ha.1; omega)

theorem toList_reserve [Inhabited T] (a : GrowableArray T) (n : Nat) (ha : a.WF) :
    (a.reserve n).toList = a.toList := by
  unfold reserve
  split
  · rfl
  · exact toList_reallocate a n ha

theorem size_reserve [Inhabited T] (a : GrowableArray T) (n : Nat) :
    (a.reserve n).size = a.size := by
  unfold reserve
  split <;> rfl

theorem append_grow [Inhabited T] (a : GrowableArray T) (x : T) (h : a.size = a.capacity) :
    a.append x =
      { size := a.size + 1
        capacity := grownCapacity a.capacity
        storage := (a.reallocate (grownCapacity a.capacity)).storage.set a.size x } := by
  simp [append, h, reallocate]

theorem append_room [Inhabited T] (a : GrowableArray T) (x : T) (h : a.size ≠ a.capacity) :
    a.append x =
      { size := a.size + 1, capacity := a.capacity, storage := a.storage.set a.size x } := by
  simp [append, h]

theorem size_append [Inhabited T] (a : GrowableArray T) (x : T) :
    (a.append x).size = a.size + 1 := by
  by_cases h : a.size = a.capacity
  · rw [append_grow a x h]
  · rw [append_room a x h]

theorem size_lt_grownCapacity (a : GrowableArray T) (h : a.size = a.capacity) :
    a.size < grownCapacity a.capacity := by
  simp only [grownCapacity]
  omega

theorem wf_append [Inhabited T] (a : GrowableArray T) (x : T) (ha : a.WF) :
    (a.append x).WF := by
  by_cases h : a.size = a.capacity
  · have hg := size_lt_grownCapacity a h
    have hw := wf_reallocate a (grownCapacity a.capacity) ha (by omega)
    rw [append_grow a x h]
    refine ⟨by simpa using hg, ?_⟩
    simpa using hw.2
  · obtain ⟨h1, h2⟩ := ha
    rw [append_room a x h]
    refine ⟨?_, by simpa using h2⟩
    show a.size + 1 ≤ a.capacity
    omega

theorem take_set_succ (l : List T) (k : Nat) (x : T) (hk : k < l.length) :
    (l.set k x).take (k + 1) = l.take k ++ [x] := by
  induction l generalizing k with
  | nil => simp at hk
  | cons y ys ih =>
    cases k with
    | zero => simp
    | succ k =>
      simp only [List.set_cons_succ, List.take_succ_cons, List.cons_append, List.cons.injEq,
        true_and]
      exact ih k (by simpa using hk)

theorem toList_append [Inhabited T] (a : GrowableArray T) (x : T) (ha : a.WF) :
    (a.append x).toList = a.toList ++ [x] := by
  by_cases h : a.size = a.capacity
  · have hg := size_lt_grownCapacity a h
    have hw := wf_reallocate a (grownCapacity a.capacity) ha (by omega)
    have ht := toList_reallocate a (grownCapacity a.capacity) ha
    rw [append_grow a x h]
    show ((a.reallocate (grownCapacity a.capacity)).storage.set a.size x).take (a.size + 1) = _
    rw [take_set_succ _ _ _ (by rw [hw.2]; exact hg), ← ht]
    rfl
  · obtain ⟨h1, h2⟩ := ha
    rw [append_room a x h]
    show (a.storage.set a.size x).take (a.size + 1) = _
    rw [take_set_succ _ _ _ (by omega)]
    rfl

theorem foldl_append_spec [Inhabited T] (l : List T) (a : GrowableArray T) (ha : a.WF) :
    (l.foldl append a).WF ∧ (l.foldl append a).toList = a.toList ++ l := by
  induction l generalizing a with
  | nil => simp [ha]
  | cons x xs ih =>
    obtain ⟨h1, h2⟩ := ih (a.append x) (wf_append a x ha)
    refine ⟨h1, ?_⟩
    simp only [List.foldl_cons]
    rw [h2, toList_append a x ha]
    simp

theorem wf_fromList [Inhabited T] (l : List T) : (fromList l).WF :=
  (foldl_append_spec l empty wf_empty).1

theorem toList_fromList [Inhabited T] (l : List T) : (fromList l).toList = l := by
  have := (foldl_append_spec l (empty : GrowableArray T) wf_empty).2
  simpa [fromList, toList, empty] using this

theorem length_toList (a : GrowableArray T) (ha : a.WF) : a.toList.length = a.size := by
  obtain ⟨h1, h2⟩ := ha
  simp only [toList, List.length_take]
  omega

theorem size_fromList [Inhabited T] (l : List T) : (fromList l).size = l.length := by
  rw [← length_toList _ (wf_fromList l), toList_fromList]

theorem capacity_reserve_of_lt [Inhabited T] (a : GrowableArray T) (n : Nat)
    (h : a.capacity < n) : (a.reserve n).capacity = n := by
  unfold reserve
  rw [if_neg (by omega)]
  rfl

theorem wf_resize [Inhabited T] (a : GrowableArray T) (n : Nat) (ha : a.WF) :
    (a.resize n).WF := by
  have hr := wf_reserve a n ha
  obtain ⟨h1, h2⟩ := ha
  unfold resize
  by_cases h : n > a.capacity
  · have h3 := hr.2
    have h5 := capacity_reserve_of_lt a n h
    simp only [h, if_true, WF, List.length_append, List.length_take, List.length_replicate,
      List.length_drop]
    omega
  · simp only [h, if_false, WF, List.length_append, List.length_take, List.length_replicate,
      List.length_drop]
    omega

theorem index_eq_getElem (a : GrowableArray T) (i : Nat) :
    a.index i = a.toList[i]? := by
  unfold index toList
  by_cases h : i < a.size
  · simp [h, List.getElem?_take]
  · simp only [h, if_false]
    symm
    rw [List.getElem?_eq_none_iff, List.length_take]
    omega

end GrowableArray

/-! ## Checked access -/

/-- C2: for every array (any size, any capacity) and every index, `at(index)`
fails with `OutOfRange` if and only if `index ≥ size`; otherwise it returns the
element stored at that offset of the storage; `at(size)` always fails, whatever
the capacity; on an array of size 0 every index fails; and `v.at(100500)` on the
vector `{1, 2, 3}` fails with `OutOfRange`. -/
theorem at_outOfRange_iff {T : Type} [Inhabited T] (a : GrowableArray T) (index : Nat) :
    (a.«at» index = Except.error VecError.OutOfRange ↔ index ≥ a.size) ∧
    (a.WF → index < a.size →
      ∃ x, a.storage[index]? = some x ∧ a.toList[index]? = some x ∧
        a.«at» index = Except.ok x) ∧
    a.«at» a.size = Except.error VecError.OutOfRange ∧
    (GrowableArray.empty : GrowableArray T).«at» index = Except.error VecError.OutOfRange ∧
    (GrowableArray.fromList [1, 2, 3] : GrowableArray Int).«at» 100500
      = Except.error VecError.OutOfRange := by
  refine ⟨?_, ?_, ?_, ?_, ?_⟩
  · unfold GrowableArray.«at»
    by_cases h : index ≥ a.size
    · simp [h]
    · simp [h]
  · intro ha hlt
    have hlen : index < a.storage.length := by
      have := ha.1
      have := ha.2
      omega
    refine ⟨a.storage[index], ?_, ?_, ?_⟩
    · simp [hlen]
    · simp [GrowableArray.toList, List.getElem?_take, hlt, hlen]
    · unfold GrowableArray.«at»
      rw [if_neg (by omega)]
      simp [List.getD_eq_getElem?_getD, hlen]
  · simp [GrowableArray.«at»]
  · simp [GrowableArray.«at», GrowableArray.empty]
  · rfl

/-- Witness for C2 on the vector `{1, 2, 3}` of the lecture: index 2 is in range
and yields the stored 3, index 3 (the size) is out of range. -/
theorem at_outOfRange_iff_witness :
    (GrowableArray.fromList [1, 2, 3] : GrowableArray Int).«at» 2 = Except.ok 3 ∧
    (GrowableArray.fromList [1, 2, 3] : GrowableArray Int).«at» 3
      = Except.error VecError.OutOfRange := by
  have h := at_outOfRange_iff (GrowableArray.fromList [1, 2, 3] : GrowableArray Int) 2
  obtain ⟨x, h1, _, h3⟩ := h.2.1 (GrowableArray.wf_fromList _) (by decide)
  have hx : x = 3 := by
    have : (GrowableArray.fromList [1, 2, 3] : GrowableArray Int).storage[2]? = some 3 := by
      decide
    rw [this] at h1
    exact (Option.some.inj h1).symm
  subst hx
  exact ⟨h3, rfl⟩

/-! ## Size and capacity -/

theorem GrowableArray.size_le_capacity_append {T : Type} [Inhabited T] (a : GrowableArray T)
    (x : T) (h : a.size ≤ a.capacity) : (a.append x).size ≤ (a.append x).capacity := by
  by_cases he : a.size = a.capacity
  · have hg := GrowableArray.size_lt_grownCapacity a he
    rw [GrowableArray.append_grow a x he]
    show a.size + 1 ≤ GrowableArray.grownCapacity a.capacity
    omega
  · rw [GrowableArray.append_room a x he]
    show a.size + 1 ≤ a.capacity
    omega

theorem GrowableArray.size_le_capacity_reserve {T : Type} [Inhabited T] (a : GrowableArray T)
    (n : Nat) (h : a.size ≤ a.capacity) : (a.reserve n).size ≤ (a.reserve n).capacity := by
  unfold GrowableArray.reserve
  split
  · exact h
  · show a.size ≤ n
    omega

theorem GrowableArray.size_le_capacity_resize {T : Type} [Inhabited T] (a : GrowableArray T)
    (n : Nat) : (a.resize n).size ≤ (a.resize n).capacity := by
  unfold GrowableArray.resize
  by_cases h : n > a.capacity
  · have := GrowableArray.capacity_reserve_of_lt a n h
    simp only [h, if_true]
    omega
  · simp only [h, if_false]
    omega

theorem GrowableArray.size_le_capacity_foldl {T : Type} [Inhabited T] (l : List T)
    (a : GrowableArray T) (h : a.size ≤ a.capacity) :
    (l.foldl GrowableArray.append a).size ≤ (l.foldl GrowableArray.append a).capacity := by
  induction l generalizing a with
  | nil => exact h
  | cons x xs ih => exact ih (a.append x) (GrowableArray.size_le_capacity_append a x h)

/-- C3: `0 ≤ size ≤ capacity` holds after each construction (empty, pre-sized with
`n` elements, from an initializer list), is preserved by every `append`,
`reserve` and `resize`, and so holds in every reachable state. -/
theorem size_le_capacity_invariant {T : Type} [Inhabited T] :
    ((GrowableArray.empty : GrowableArray T).size
        ≤ (GrowableArray.empty : GrowableArray T).capacity) ∧
    (∀ n : Nat, (GrowableArray.sized n : GrowableArray T).size
        ≤ (GrowableArray.sized n : GrowableArray T).capacity) ∧
    (∀ l : List T, (GrowableArray.fromList l).size ≤ (GrowableArray.fromList l).capacity) ∧
    (∀ (a : GrowableArray T) (x : T), a.size ≤ a.capacity →
        (a.append x).size ≤ (a.append x).capacity) ∧
    (∀ (a : GrowableArray T) (n : Nat), a.size ≤ a.capacity →
        (a.reserve n).size ≤ (a.reserve n).capacity) ∧
    (∀ (a : GrowableArray T) (n : Nat), a.size ≤ a.capacity →
        (a.resize n).size ≤ (a.resize n).capacity) ∧
    (∀ a : GrowableArray T, GrowableArray.Reachable a → 0 ≤ a.size ∧ a.size ≤ a.capacity) := by
  have hempty : (GrowableArray.empty : GrowableArray T).size
      ≤ (GrowableArray.empty : GrowableArray T).capacity := Nat.le_refl 0
  have hsized : ∀ n : Nat, (GrowableArray.sized n : GrowableArray T).size
      ≤ (GrowableArray.sized n : GrowableArray T).capacity := fun n => Nat.le_refl n
  have hlist : ∀ l : List T,
      (GrowableArray.fromList l).size ≤ (GrowableArray.fromList l).capacity :=
    fun l => GrowableArray.size_le_capacity_foldl l _ hempty
  refine ⟨hempty, hsized, hlist, GrowableArray.size_le_capacity_append,
    GrowableArray.size_le_capacity_reserve,
    fun a n _ => GrowableArray.size_le_capacity_resize a n, ?_⟩
  intro a hr
  refine ⟨Nat.zero_le _, ?_⟩
  induction hr with
  | empty => exact hempty
  | sized n => exact hsized n
  | fromList l => exact hlist l
  | append a x _ ih => exact GrowableArray.size_le_capacity_append a x ih
  | reserve a n _ ih => exact GrowableArray.size_le_capacity_reserve a n ih
  | resize a n _ _ => exact GrowableArray.size_le_capacity_resize a n

/-- Witness for C3 on the state of the lecture's demonstration (02.cpp:123-132):
the vector `{1, 2, 3, 4, 5}` after `push_back(6)`, then shrunk and reserved. -/
theorem size_le_capacity_invariant_witness :
    ((((GrowableArray.fromList [1, 2, 3, 4, 5] : GrowableArray Int).append 6).resize 2).reserve
        20).size
      ≤ ((((GrowableArray.fromList [1, 2, 3, 4, 5] : GrowableArray Int).append 6).resize
        2).reserve 20).capacity :=
  ((size_le_capacity_invariant (T := Int)).2.2.2.2.2.2 _
    (GrowableArray.Reachable.reserve _ 20
      (GrowableArray.Reachable.resize _ 2
        (GrowableArray.Reachable.append _ 6
          (GrowableArray.Reachable.fromList [1, 2, 3, 4, 5]))))).2

/-! ## Reserve -/

/-- C4: for every array and every `n`, after `reserve(n)` the capacity is `≥ n`,
the size and the elements at offsets `[0, size)` are unchanged; when the capacity
was already `≥ n` nothing changes, and the capacity never shrinks. In
particular `reserve(n)` on an empty vector leaves the size 0. -/
theorem reserve_frame {T : Type} [Inhabited T] (a : GrowableArray T) (n : Nat) (ha : a.WF) :
    (a.reserve n).capacity ≥ n ∧
    (a.reserve n).size = a.size ∧
    (a.reserve n).toList = a.toList ∧
    (∀ i, i < a.size → (a.reserve n).storage[i]? = a.storage[i]?) ∧
    (a.capacity ≥ n → a.reserve n = a) ∧
    (a.reserve n).capacity ≥ a.capacity ∧
    ((GrowableArray.empty : GrowableArray T).reserve n).size = 0 := by
  have hl := GrowableArray.toList_reserve a n ha
  have hs := GrowableArray.size_reserve a n
  refine ⟨?_, hs, hl, ?_, ?_, ?_, ?_⟩
  · by_cases h : a.capacity ≥ n
    · simp [GrowableArray.reserve, h]
    · rw [GrowableArray.capacity_reserve_of_lt a n (by omega)]
  · intro i hi
    have h1 : (a.reserve n).toList[i]? = a.toList[i]? := by rw [hl]
    simp only [GrowableArray.toList, List.getElem?_take, hs] at h1
    simpa [hi] using h1
  · intro h
    simp [GrowableArray.reserve, h]
  · by_cases h : a.capacity ≥ n
    · simp [GrowableArray.reserve, h]
    · rw [GrowableArray.capacity_reserve_of_lt a n (by omega)]
      omega
  · exact GrowableArray.size_reserve _ n

/-- Witness for C4: `reserve(5)` on an empty vector gives size 0 and capacity at
least 5, and `reserve(2)` on `{1, 2, 3}` changes nothing. -/
theorem reserve_frame_witness :
    ((GrowableArray.empty : GrowableArray Int).reserve 5).capacity ≥ 5 ∧
    ((GrowableArray.empty : GrowableArray Int).reserve 5).size = 0 ∧
    (GrowableArray.fromList [1, 2, 3] : GrowableArray Int).reserve 2
      = GrowableArray.fromList [1, 2, 3] :=
  ⟨(reserve_frame (GrowableArray.empty : GrowableArray Int) 5 GrowableArray.wf_empty).1,
   (reserve_frame (GrowableArray.empty : GrowableArray Int) 5 GrowableArray.wf_empty).2.1,
   (reserve_frame (GrowableArray.fromList [1, 2, 3] : GrowableArray Int) 2
      (GrowableArray.wf_fromList _)).2.2.2.2.1 (by decide)⟩

/-! ## Growth events -/

theorem clog_succ_of_eq_pow (s : Nat) (hs : 1 ≤ s) (h : s = 2 ^ Nat.clog 2 s) :
    Nat.clog 2 (s + 1) = Nat.clog 2 s + 1 := by
  apply Nat.le_antisymm
  · apply (Nat.le_pow_iff_clog_le (by decide)).1
    rw [pow_succ]
    omega
  · apply (Nat.pow_lt_iff_lt_clog (by decide)).1
    omega

theorem clog_succ_of_ne_pow (s : Nat) (h : s ≠ 2 ^ Nat.clog 2 s) :
    Nat.clog 2 (s + 1) = Nat.clog 2 s := by
  have hle := Nat.le_pow_clog (b := 2) (by decide) s
  apply Nat.le_antisymm
  · apply (Nat.le_pow_iff_clog_le (by decide)).1
    omega
  · exact Nat.clog_mono_right 2 (Nat.le_succ s)

theorem countGrowth_replicate (m : Nat) (x : Int) (a : GrowableArray Int) (count : Nat)
    (hs : 1 ≤ a.size) (hcap : a.capacity = 2 ^ Nat.clog 2 a.size)
    (hcount : count = Nat.clog 2 a.size + 1) :
    countGrowth (List.replicate m x) a count = Nat.clog 2 (a.size + m) + 1 := by
  induction m generalizing a count with
  | zero => simpa [countGrowth] using hcount
  | succ m ih =>
    simp only [List.replicate_succ, countGrowth]
    have hsz := GrowableArray.size_append a x
    by_cases h : a.size = a.capacity
    · have hc := clog_succ_of_eq_pow a.size hs (by rw [← hcap]; exact h)
      rw [ih (a.append x) _ (by omega)]
      · rw [hsz]
        congr 2
        omega
      · rw [hsz, hc, GrowableArray.append_grow a x h]
        show GrowableArray.grownCapacity a.capacity = _
        rw [GrowableArray.grownCapacity, hcap, pow_succ]
        have := Nat.one_le_two_pow (n := Nat.clog 2 a.size)
        omega
      · simp only [h, beq_self_eq_true, if_true]
        rw [hsz, hc]
        omega
    · have hc := clog_succ_of_ne_pow a.size (by rw [← hcap]; exact h)
      rw [ih (a.append x) _ (by omega)]
      · rw [hsz]
        congr 2
        omega
      · rw [hsz, hc, GrowableArray.append_room a x h]
        exact hcap
      · have hne : (a.size == a.capacity) = false := by simpa using h
        simp only [hne]
        rw [hsz, hc]
        simpa using hcount

/-- C5, as stated, fails for `N = 1`: the single append finds `size == capacity`
(both 0) and is a growth event, while `ceil(log2(1)) = 0`. -/
theorem growthEvents_not_le_clog :
    growthEvents 1 = 1 ∧ Nat.clog 2 1 = 0 ∧ ¬ (growthEvents 1 ≤ Nat.clog 2 1) := by
  refine ⟨by decide, Nat.clog_one_right 2, ?_⟩
  rw [Nat.clog_one_right]
  decide

/-- C5, amended: for every `N ≥ 1`, appending `N` elements one by one to an
initially empty array of capacity 0 under the policy `max(1, capacity * 2)`
triggers exactly `ceil(log2(N)) + 1` growth events, where `ceil(log2(N))`
(`Nat.clog 2 N`) is the least `k` with `N ≤ 2 ^ k`. -/
theorem growthEvents_eq_clog_succ (N : Nat) (hN : 1 ≤ N) :
    growthEvents N = Nat.clog 2 N + 1 ∧
    growthEvents N ≤ Nat.clog 2 N + 1 ∧
    N ≤ 2 ^ Nat.clog 2 N ∧ (∀ k, N ≤ 2 ^ k → Nat.clog 2 N ≤ k) := by
  have key : growthEvents N = Nat.clog 2 N + 1 := by
    obtain ⟨m, rfl⟩ : ∃ m, N = m + 1 := ⟨N - 1, by omega⟩
    unfold growthEvents
    simp only [List.replicate_succ, countGrowth]
    have h := countGrowth_replicate m 0 ((GrowableArray.empty : GrowableArray Int).append 0) 1
      (by decide) (by rw [show (GrowableArray.append GrowableArray.empty (0 : Int)).size = 1
        from rfl, Nat.clog_one_right]; rfl)
      (by rw [show (GrowableArray.append GrowableArray.empty (0 : Int)).size = 1
        from rfl, Nat.clog_one_right])
    rw [show (GrowableArray.append GrowableArray.empty (0 : Int)).size = 1 from rfl] at h
    rw [show m + 1 = 1 + m from Nat.add_comm m 1]
    exact h
  exact ⟨key, Nat.le_of_eq key, Nat.le_pow_clog (by decide) N,
    fun k hk => (Nat.le_pow_iff_clog_le (by decide)).1 hk⟩

/-- Witness for C5 amended: ten appends (the specification's scenario 1..10)
trigger five growth events (capacities 1, 2, 4, 8, 16). -/
theorem growthEvents_eq_clog_succ_witness :
    1 ≤ 10 ∧ growthEvents 10 = Nat.clog 2 10 + 1 ∧ growthEvents 10 = 5 :=
  ⟨by decide, (growthEvents_eq_clog_succ 10 (by decide)).1, by decide⟩

/-! ## The naive reverse program -/

theorem toSizeT_natCast (w n : Nat) (h : n < 2 ^ w) : toSizeT w (n : Int) = n := by
  unfold toSizeT
  have h2 : ((n : Int)) < (2 : Int) ^ w := by exact_mod_cast h
  rw [Int.emod_eq_of_lt (Int.ofNat_nonneg n) h2]
  exact Int.toNat_ofNat n

theorem sizeSucc_of_lt (w i : Nat) (h : i + 1 < 2 ^ w) : sizeSucc w i = i + 1 := by
  unfold sizeSucc
  exact Nat.mod_eq_of_lt h

theorem readLoop_consumes (w : Nat) (n : Int) (xs rest : List Int) (i fuel : Nat)
    (v : GrowableArray Int) (hle : i + xs.length ≤ toSizeT w n) (hb : toSizeT w n < 2 ^ w) :
    readLoop w (fuel + xs.length) n i (xs ++ rest) v
      = readLoop w fuel n (i + xs.length) rest (xs.foldl GrowableArray.append v) := by
  induction xs generalizing i v with
  | nil => rfl
  | cons x xs ih =>
    simp only [List.length_cons] at hle
    have hne : (i != toSizeT w n) = true := by
      simp only [bne_iff_ne, ne_eq]
      omega
    have hstep : fuel + (x :: xs).length = (fuel + xs.length) + 1 := by
      simp only [List.length_cons]
      omega
    rw [hstep]
    simp only [readLoop, hne, if_true, List.cons_append, List.foldl_cons]
    rw [sizeSucc_of_lt w i (by omega), ih (i + 1) (v.append x) (by omega)]
    congr 1
    simp only [List.length_cons]
    omega

theorem readLoop_exits (w : Nat) (n : Int) (xs rest : List Int) (fuel : Nat)
    (hn : xs.length = toSizeT w n) (hb : toSizeT w n < 2 ^ w) (hfuel : xs.length < fuel) :
    readLoop w fuel n 0 (xs ++ rest) GrowableArray.empty
      = Outcome.done (rest, GrowableArray.fromList xs) := by
  obtain ⟨f, rfl⟩ : ∃ f, fuel = (f + 1) + xs.length := ⟨fuel - xs.length - 1, by omega⟩
  rw [readLoop_consumes w n xs rest 0 (f + 1) _ (by omega) hb]
  simp only [readLoop, Nat.zero_add, hn, bne_self_eq_false, Bool.false_eq_true, if_false]
  rfl

theorem map_getD_range (l : List Int) (m : Nat) (hm : m ≤ l.length) :
    (List.range m).map (fun k => l.getD k 0) = l.take m := by
  induction m with
  | zero => simp
  | succ m ih =>
    have hlt : m < l.length := hm
    rw [List.range_succ, List.map_append, ih (by omega), List.take_succ]
    simp [List.getD_eq_getElem?_getD, hlt]

theorem printLoop_trace (w : Nat) (v : GrowableArray Int) (m fuel : Nat)
    (hm : m ≤ v.size) (hwf : v.WF) (hb : v.size < 2 ^ w) (hfuel : m < fuel) :
    printLoop w fuel v ((m : Int) - 1)
      = Outcome.done ((List.range m).reverse.map (fun k => (k, v.toList.getD k 0))) := by
  induction m generalizing fuel with
  | zero =>
    obtain ⟨f, rfl⟩ : ∃ f, fuel = f + 1 := ⟨fuel - 1, by omega⟩
    simp [printLoop]
  | succ m ih =>
    obtain ⟨f, rfl⟩ : ∃ f, fuel = f + 1 := ⟨fuel - 1, by omega⟩
    have hi : ((m + 1 : Nat) : Int) - 1 = (m : Int) := by push_cast; ring
    have hlen := GrowableArray.length_toList v hwf
    have hidx : v.index m = some (v.toList.getD m 0) := by
      rw [GrowableArray.index_eq_getElem]
      have : m < v.toList.length := by omega
      simp [List.getD_eq_getElem?_getD, this]
    rw [hi]
    simp only [printLoop, ge_iff_le, Int.ofNat_nonneg, if_true]
    rw [toSizeT_natCast w m (by omega), hidx]
    simp only []
    rw [ih f (by omega) (by omega)]
    simp [Outcome.map, List.range_succ]

theorem forwardLoop_drop (w : Nat) (v : GrowableArray Int) (d i fuel : Nat)
    (hd : i + d = v.size) (hwf : v.WF) (hb : v.size < 2 ^ w) (hfuel : d < fuel) :
    forwardLoop w fuel v i = Outcome.done (v.toList.drop i) := by
  have hlen := GrowableArray.length_toList v hwf
  induction d generalizing i fuel with
  | zero =>
    obtain ⟨f, rfl⟩ : ∃ f, fuel = f + 1 := ⟨fuel - 1, by omega⟩
    have : i = v.size := by omega
    subst this
    simp only [forwardLoop, bne_self_eq_false, Bool.false_eq_true, if_false]
    rw [List.drop_of_length_le (by omega)]
  | succ d ih =>
    obtain ⟨f, rfl⟩ : ∃ f, fuel = f + 1 := ⟨fuel - 1, by omega⟩
    have hne : (i != v.size) = true := by
      simp only [bne_iff_ne, ne_eq]
      omega
    have hlt : i < v.toList.length := by omega
    have hidx : v.index i = some (v.toList[i]) := by
      rw [GrowableArray.index_eq_getElem]
      simp [hlt]
    simp only [forwardLoop, hne, if_true, hidx]
    rw [sizeSucc_of_lt w i (by omega), ih (i + 1) f (by omega) (by omega)]
    simp only [Outcome.map]
    rw [List.drop_eq_getElem_cons hlt]

theorem int_lt_two_pow (w n : Nat) (hw : 32 ≤ w) (hn : (n : Int) ≤ INT_MAX) : n < 2 ^ w := by
  have h1 : (2 : Nat) ^ 32 ≤ 2 ^ w := Nat.pow_le_pow_right (by decide) hw
  have h2 : n ≤ 2147483647 := by
    unfold INT_MAX at hn
    omega
  have h3 : (2 : Nat) ^ 32 = 4294967296 := by norm_num
  omega

/-- C1: for every `n ≥ 0` (an `int`) and every input `x0 .. x(n-1)`, the naive
program prints exactly `x(n-1), ..., x0`; its read loop leaves the vector built by
`n` calls of `push_back` on an empty vector, of size `n`; iterating that vector
front to back yields `x0 .. x(n-1)`; and the print loop uses the indices
`n-1, ..., 0`, each within `[0, v.size())`. -/
theorem naiveMain_prints_reverse (w fuel : Nat) (xs : List Int) (hw : 32 ≤ w)
    (hn : (xs.length : Int) ≤ INT_MAX) (hfuel : xs.length < fuel) :
    naiveMain w fuel ((xs.length : Int) :: xs) = Outcome.done xs.reverse ∧
    readLoop w fuel (xs.length : Int) 0 xs GrowableArray.empty
      = Outcome.done ([], GrowableArray.fromList xs) ∧
    (GrowableArray.fromList xs).size = xs.length ∧
    forwardLoop w fuel (GrowableArray.fromList xs) 0 = Outcome.done xs ∧
    ∃ trace, printLoop w fuel (GrowableArray.fromList xs) ((xs.length : Int) - 1)
        = Outcome.done trace ∧
      trace.map Prod.snd = xs.reverse ∧
      trace.map Prod.fst = (List.range xs.length).reverse ∧
      ∀ p ∈ trace, 0 ≤ p.1 ∧ p.1 < (GrowableArray.fromList xs).size := by
  have hb : xs.length < 2 ^ w := int_lt_two_pow w xs.length hw hn
  have hsz : toSizeT w (xs.length : Int) = xs.length := toSizeT_natCast w xs.length hb
  have hwf := GrowableArray.wf_fromList xs
  have hsize := GrowableArray.size_fromList xs
  have hlist := GrowableArray.toList_fromList xs
  have hread : readLoop w fuel (xs.length : Int) 0 xs GrowableArray.empty
      = Outcome.done ([], GrowableArray.fromList xs) := by
    have := readLoop_exits w (xs.length : Int) xs [] fuel (by rw [hsz]) (by rw [hsz]; exact hb)
      hfuel
    simpa using this
  have hprint := printLoop_trace w (GrowableArray.fromList xs) xs.length fuel
    (by rw [hsize]) hwf (by rw [hsize]; exact hb) hfuel
  rw [hlist] at hprint
  have hsnd : ((List.range xs.length).reverse.map (fun k => (k, xs.getD k 0))).map Prod.snd
      = xs.reverse := by
    have := map_getD_range xs xs.length (Nat.le_refl _)
    rw [List.take_length] at this
    rw [List.map_map, List.map_reverse]
    exact congrArg List.reverse this
  have hfst : ((List.range xs.length).reverse.map (fun k => (k, xs.getD k 0))).map Prod.fst
      = (List.range xs.length).reverse := by
    rw [List.map_map]
    exact List.map_id _
  refine ⟨?_, hread, hsize, ?_, _, hprint, hsnd, hfst, ?_⟩
  · have hmin : ¬ ((xs.length : Int) - 1 < INT_MIN) := by
      unfold INT_MIN
      omega
    simp only [naiveMain, hread, hmin, if_false, hprint, Outcome.map]
    rw [hsnd]
  · have := forwardLoop_drop w (GrowableArray.fromList xs) xs.length 0 fuel
      (by rw [hsize]; omega) hwf (by rw [hsize]; exact hb) hfuel
    rw [this, hlist]
    rfl
  · intro p hp
    refine ⟨Nat.zero_le _, ?_⟩
    have hmem : p.1 ∈ (List.range xs.length).reverse := by
      rw [← hfst]
      exact List.mem_map_of_mem Prod.fst hp
    rw [hsize]
    simpa using hmem

/-- Witness for C1: with `n = 3` and the input `7 8 9` the program prints
`9 8 7`. -/
theorem naiveMain_prints_reverse_witness :
    naiveMain 64 4 [3, 7, 8, 9] = Outcome.done [9, 8, 7] :=
  (naiveMain_prints_reverse 64 4 [7, 8, 9] (by decide) (by decide) (by decide)).1

/-! ## A negative count -/

theorem toSizeT_lt (w : Nat) (n : Int) : toSizeT w n < 2 ^ w := by
  unfold toSizeT
  have hpos : (0 : Int) < (2 : Int) ^ w := by positivity
  have h1 := Int.emod_lt_of_pos n hpos
  have h2 := Int.emod_nonneg n (ne_of_gt hpos)
  have h3 : ((n % (2 : Int) ^ w).toNat : Int) < ((2 ^ w : Nat) : Int) := by
    rw [Int.toNat_of_nonneg h2]
    exact_mod_cast h1
  exact_mod_cast h3

theorem toSizeT_of_neg (w : Nat) (n : Int) (hw : 32 ≤ w) (hmin : INT_MIN ≤ n) (hneg : n < 0) :
    (toSizeT w n : Int) = (2 : Int) ^ w + n := by
  unfold toSizeT
  have h1 : (2 : Nat) ^ 32 ≤ 2 ^ w := Nat.pow_le_pow_right (by decide) hw
  have h3 : (2 : Nat) ^ 32 = 4294967296 := by norm_num
  have h4 : ((2 ^ w : Nat) : Int) = (2 : Int) ^ w := by push_cast; rfl
  have h5 : (4294967296 : Int) ≤ (2 : Int) ^ w := by
    rw [← h4]
    omega
  unfold INT_MIN at hmin
  have h6 : n % (2 : Int) ^ w = (2 : Int) ^ w + n := by
    rw [← Int.add_emod_self_left (a := (2 : Int) ^ w) (b := n)]
    exact Int.emod_eq_of_lt (by omega) (by omega)
  rw [h6]
  exact Int.toNat_of_nonneg (by omega)

theorem readLoop_runs_off_input (w : Nat) (n : Int) (xs : List Int) (fuel : Nat)
    (hlt : xs.length < toSizeT w n) (hfuel : xs.length < fuel) :
    readLoop w fuel n 0 xs GrowableArray.empty = Outcome.undefined := by
  obtain ⟨f, rfl⟩ : ∃ f, fuel = (f + 1) + xs.length := ⟨fuel - xs.length - 1, by omega⟩
  have h := readLoop_consumes w n xs [] 0 (f + 1) GrowableArray.empty (by omega)
    (toSizeT_lt w n)
  rw [List.append_nil] at h
  rw [h]
  have hne : (0 + xs.length != toSizeT w n) = true := by
    simp only [bne_iff_ne, ne_eq]
    omega
  simp only [readLoop, hne, if_true]

theorem toSizeT_of_neg_gt (w maxSize : Nat) (n : Int) (hw : 32 ≤ w)
    (hmax : maxSize + 2 ^ 31 < 2 ^ w) (hmin : INT_MIN ≤ n) (hneg : n < 0) :
    toSizeT w n > maxSize := by
  have h := toSizeT_of_neg w n hw hmin hneg
  have h4 : ((2 ^ w : Nat) : Int) = (2 : Int) ^ w := by push_cast; rfl
  have h5 : ((maxSize + 2 ^ 31 : Nat) : Int) < ((2 ^ w : Nat) : Int) := by exact_mod_cast hmax
  rw [h4] at h5
  push_cast at h5
  unfold INT_MIN at hmin
  have h6 : (maxSize : Int) < (toSizeT w n : Int) := by
    rw [h]
    omega
  exact_mod_cast h6

/-- C6, as stated, fails for `n = -1` with one number on the input (64-bit
`size_t`): in the naive program the bound of the read loop is the converted
value `2^64 - 1`, the body runs and appends the number, and the program ends in
undefined behaviour (the read past the end of the input), not in a failure. -/
theorem naiveMain_negative_count_no_failure :
    toSizeT 64 (-1) = 2 ^ 64 - 1 ∧
    readLoop 64 2 (-1) 0 [7] GrowableArray.empty
      = readLoop 64 1 (-1) 1 [] (GrowableArray.fromList [7]) ∧
    (∀ fuel, 2 ≤ fuel → naiveMain 64 fuel [-1, 7] = Outcome.undefined) := by
  refine ⟨by decide, by decide, ?_⟩
  intro fuel hf
  have h := readLoop_runs_off_input 64 (-1) [7] fuel (by decide) hf
  simp only [naiveMain, h]

/-- C6, amended: for every negative `n` read into `int n` (`size_t` of at least
32 bits), `n` is converted to the unsigned value `2^w + n` wherever it is used
as a count. The programs with `v.reserve(n)` and with `vector<int> v(n)` fail
explicitly, whatever the input and the fuel: the container refuses the request
`2^w + n`, which is above every limit `maxSize < 2^w - 2^31`, before any loop
runs. The naive program does not fail explicitly: its read loop uses `2^w + n`
as its bound, reads and appends every number available on the input, and, when
the input holds fewer than `2^w + n` numbers, reads past the end of the input
(undefined behaviour). -/
theorem negative_count_programs (w maxSize : Nat) (n : Int) (hw : 32 ≤ w)
    (hmax : maxSize + 2 ^ 31 < 2 ^ w) (hmin : INT_MIN ≤ n) (hneg : n < 0) :
    (toSizeT w n : Int) = (2 : Int) ^ w + n ∧
    (∀ (input : List Int) (fuel : Nat),
      reserveMain w maxSize fuel (n :: input)
        = Outcome.raised VecError.AllocationFailure) ∧
    (∀ (input : List Int) (fuel : Nat),
      sizedMain w maxSize fuel (n :: input)
        = Outcome.raised VecError.AllocationFailure) ∧
    (∀ (xs rest : List Int) (fuel : Nat), xs.length ≤ toSizeT w n →
      readLoop w (fuel + xs.length) n 0 (xs ++ rest) GrowableArray.empty
        = readLoop w fuel n xs.length rest (GrowableArray.fromList xs)) ∧
    (∀ (xs : List Int) (fuel : Nat), xs.length < toSizeT w n → xs.length < fuel →
      naiveMain w fuel (n :: xs) = Outcome.undefined) := by
  have hgt := toSizeT_of_neg_gt w maxSize n hw hmax hmin hneg
  refine ⟨toSizeT_of_neg w n hw hmin hneg, ?_, ?_, ?_, ?_⟩
  · intro input fuel
    simp only [reserveMain, GrowableArray.reserveChecked, hgt, if_true]
  · intro input fuel
    simp only [sizedMain, GrowableArray.sizedChecked, hgt, if_true]
  · intro xs rest fuel hle
    have h := readLoop_consumes w n xs rest 0 fuel GrowableArray.empty (by omega)
      (toSizeT_lt w n)
    rw [Nat.zero_add] at h
    exact h
  · intro xs fuel hlt hfuel
    have h := readLoop_runs_off_input w n xs fuel hlt hfuel
    simp only [naiveMain, h]

/-- Witness for C6 amended, at `n = -3` on a 64-bit `size_t` with the limit
`2^61 - 1` (`max_size()` of a `vector<int>` there): the two programs that hand
the count to the container fail explicitly, the naive program ends in undefined
behaviour on the input `7 8`. With the count 3 the same two programs run to the
end and leave the vector `7 8 9`. -/
theorem negative_count_programs_witness :
    reserveMain 64 (2 ^ 61 - 1) 5 [-3, 7, 8] = Outcome.raised VecError.AllocationFailure ∧
    sizedMain 64 (2 ^ 61 - 1) 5 [-3, 7, 8] = Outcome.raised VecError.AllocationFailure ∧
    naiveMain 64 5 [-3, 7, 8] = Outcome.undefined ∧
    reserveMain 64 (2 ^ 61 - 1) 5 [3, 7, 8, 9]
      = Outcome.done { size := 3, capacity := 3, storage := [7, 8, 9] } ∧
    sizedMain 64 (2 ^ 61 - 1) 5 [3, 7, 8, 9]
      = Outcome.done { size := 3, capacity := 3, storage := [7, 8, 9] } :=
  ⟨(negative_count_programs 64 (2 ^ 61 - 1) (-3) (by decide) (by decide) (by decide)
      (by decide)).2.1 [7, 8] 5,
   (negative_count_programs 64 (2 ^ 61 - 1) (-3) (by decide) (by decide) (by decide)
      (by decide)).2.2.1 [7, 8] 5,
   (negative_count_programs 64 (2 ^ 61 - 1) (-3) (by decide) (by decide) (by decide)
      (by decide)).2.2.2.2 [7, 8] 5 (by decide) (by decide),
   by decide, by decide⟩

/-! ## Null-terminated strings -/

theorem firstZeroAt_step (mem : List Nat) (src dst L c : Nat)
    (hz : firstZeroAt mem src (L + 1)) (hdisj : dst + (L + 1) < src ∨ src + (L + 1) < dst) :
    firstZeroAt (mem.set dst c) (src + 1) L := by
  obtain ⟨h0, hk⟩ := hz
  constructor
  · rw [List.getElem?_set_ne (by omega)]
    rw [← h0]
    congr 1
    omega
  · intro k hlt
    obtain ⟨c', h1, h2⟩ := hk (k + 1) (by omega)
    refine ⟨c', ?_, h2⟩
    rw [List.getElem?_set_ne (by omega)]
    rw [← h1]
    congr 1
    omega

theorem firstZeroAt_head (mem : List Nat) (src L : Nat) (hz : firstZeroAt mem src (L + 1)) :
    ∃ c, mem[src]? = some c ∧ (c != 0) = true := by
  obtain ⟨c, h1, h2⟩ := hz.2 0 (by omega)
  exact ⟨c, by simpa using h1, by simpa using h2⟩

theorem strlen_firstZeroAt (mem : List Nat) (src L fuel : Nat) (hz : firstZeroAt mem src L)
    (hfuel : L < fuel) : strlen fuel mem src = Outcome.done L := by
  induction L generalizing src fuel with
  | zero =>
    obtain ⟨f, rfl⟩ : ∃ f, fuel = f + 1 := ⟨fuel - 1, by omega⟩
    have h0 : mem[src]? = some 0 := by simpa using hz.1
    simp [strlen, h0]
  | succ L ih =>
    obtain ⟨f, rfl⟩ : ∃ f, fuel = f + 1 := ⟨fuel - 1, by omega⟩
    obtain ⟨c, h1, h2⟩ := firstZeroAt_head mem src L hz
    have hz' : firstZeroAt mem (src + 1) L := by
      refine ⟨?_, ?_⟩
      · rw [← hz.1]
        congr 1
        omega
      · intro k hk
        obtain ⟨c', h3, h4⟩ := hz.2 (k + 1) (by omega)
        refine ⟨c', ?_, h4⟩
        rw [← h3]
        congr 1
        omega
    simp only [strlen, h1, h2, if_true]
    rw [ih (src + 1) f hz' (by omega)]
    rfl

theorem copy_eq_strcpy (mem : List Nat) (src dst L fuel fuel2 : Nat)
    (hz : firstZeroAt mem src L) (hdst : dst + L < mem.length)
    (hdisj : dst + L < src ∨ src + L < dst) (hfuel : L < fuel) (hfuel2 : L + 1 < fuel2) :
    copy fuel2 mem src (src + L + 1) dst = strcpy fuel mem dst src := by
  induction L generalizing mem src dst fuel fuel2 with
  | zero =>
    obtain ⟨f, rfl⟩ : ∃ f, fuel = f + 1 := ⟨fuel - 1, by omega⟩
    obtain ⟨g, rfl⟩ : ∃ g, fuel2 = g + 2 := ⟨fuel2 - 2, by omega⟩
    have h0 : mem[src]? = some 0 := by simpa using hz.1
    have hd : dst < mem.length := by omega
    simp [copy, strcpy, h0, hd]
  | succ L ih =>
    obtain ⟨f, rfl⟩ : ∃ f, fuel = f + 1 := ⟨fuel - 1, by omega⟩
    obtain ⟨g, rfl⟩ : ∃ g, fuel2 = g + 1 := ⟨fuel2 - 1, by omega⟩
    obtain ⟨c, h1, h2⟩ := firstZeroAt_head mem src L hz
    have hd : dst < mem.length := by omega
    have hne : (src != src + (L + 1) + 1) = true := by
      simp only [bne_iff_ne, ne_eq]
      omega
    have hstep := ih (mem.set dst c) (src + 1) (dst + 1) f g
      (firstZeroAt_step mem src dst L c hz hdisj)
      (by rw [List.length_set]; omega) (by omega) (by omega) (by omega)
    simp only [copy, strcpy, hne, h1, h2, hd, if_true]
    rw [← hstep]
    congr 1
    omega

theorem strcpy_result (mem : List Nat) (src dst L fuel : Nat)
    (hz : firstZeroAt mem src L) (hdst : dst + L < mem.length)
    (hdisj : dst + L < src ∨ src + L < dst) (hfuel : L < fuel) :
    ∃ mem', strcpy fuel mem dst src = Outcome.done mem' ∧ mem'.length = mem.length ∧
      (∀ k, k ≤ L → mem'[dst + k]? = mem[src + k]?) ∧
      (∀ a, a < dst ∨ dst + L < a → mem'[a]? = mem[a]?) := by
  induction L generalizing mem src dst fuel with
  | zero =>
    obtain ⟨f, rfl⟩ : ∃ f, fuel = f + 1 := ⟨fuel - 1, by omega⟩
    have h0 : mem[src]? = some 0 := by simpa using hz.1
    have hd : dst < mem.length := by omega
    refine ⟨mem.set dst 0, by simp [strcpy, h0, hd], List.length_set _ _ _, ?_, ?_⟩
    · intro k hk
      have : k = 0 := by omega
      subst this
      simp [h0, hd]
    · intro a ha
      exact List.getElem?_set_ne (by omega)
  | succ L ih =>
    obtain ⟨f, rfl⟩ : ∃ f, fuel = f + 1 := ⟨fuel - 1, by omega⟩
    obtain ⟨c, h1, h2⟩ := firstZeroAt_head mem src L hz
    have hd : dst < mem.length := by omega
    obtain ⟨mem', hrun, hlen, hcopy, hrest⟩ := ih (mem.set dst c) (src + 1) (dst + 1) f
      (firstZeroAt_step mem src dst L c hz hdisj)
      (by rw [List.length_set]; omega) (by omega) (by omega)
    refine ⟨mem', ?_, ?_, ?_, ?_⟩
    · simp only [strcpy, h1, h2, hd, if_true]
      exact hrun
    · rw [hlen, List.length_set]
    · intro k hk
      cases k with
      | zero =>
        rw [Nat.add_zero, Nat.add_zero, hrest dst (by omega), h1]
        simp [hd]
      | succ k =>
        have h3 := hcopy k (by omega)
        rw [List.getElem?_set_ne (by omega)] at h3
        rw [show dst + (k + 1) = dst + 1 + k by omega, show src + (k + 1) = src + 1 + k by omega]
        exact h3
    · intro a ha
      rw [hrest a (by omega)]
      exact List.getElem?_set_ne (by omega)

/-- C7: for every `src` whose first zero byte is at offset `L` and every `dst`
with more than `L` bytes that does not overlap `src`, `strcpy(dst, src)`
terminates; afterwards `dst` holds `src[0..L]` (the `L` characters and the
terminating zero), every byte outside `dst[0..L]` (the old bytes of `dst`
behind offset `L`, and `src`) is unchanged, and the memory is the one that
`std::copy(src, src + strlen(src) + 1, dst)` leaves. -/
theorem strcpy_copies_string (mem : List Nat) (src dst L fuel : Nat)
    (hz : firstZeroAt mem src L) (hdst : dst + L < mem.length)
    (hdisj : dst + L < src ∨ src + L < dst) (hfuel : L < fuel) :
    ∃ mem', strcpy fuel mem dst src = Outcome.done mem' ∧ mem'.length = mem.length ∧
      (∀ k, k ≤ L → mem'[dst + k]? = mem[src + k]?) ∧
      (∀ a, a < dst ∨ dst + L < a → mem'[a]? = mem[a]?) ∧
      (∀ k, k ≤ L → mem'[src + k]? = mem[src + k]?) ∧
      (∀ fuel2, L + 1 < fuel2 → copyWithStrlen fuel2 mem src dst = Outcome.done mem') := by
  obtain ⟨mem', hrun, hlen, hcopy, hrest⟩ := strcpy_result mem src dst L fuel hz hdst hdisj hfuel
  refine ⟨mem', hrun, hlen, hcopy, hrest, ?_, ?_⟩
  · intro k hk
    exact hrest (src + k) (by omega)
  · intro fuel2 hf2
    have hs := strlen_firstZeroAt mem src L fuel2 hz (by omega)
    simp only [copyWithStrlen, hs]
    rw [copy_eq_strcpy mem src dst L fuel fuel2 hz hdst hdisj hfuel hf2]
    exact hrun

/-- Witness for C7: the string `"hi"` at offset 0 copied to offset 4 of a memory
of nine characters. -/
theorem strcpy_copies_string_witness :
    ∃ mem', strcpy 3 [104, 105, 0, 9, 9, 9, 9, 9, 9] 4 0 = Outcome.done mem' ∧
      mem' = [104, 105, 0, 9, 104, 105, 0, 9, 9] ∧
      copyWithStrlen 4 [104, 105, 0, 9, 9, 9, 9, 9, 9] 0 4 = Outcome.done mem' := by
  have hz : firstZeroAt [104, 105, 0, 9, 9, 9, 9, 9, 9] 0 2 := by
    refine ⟨by decide, ?_⟩
    intro k hk
    have : k = 0 ∨ k = 1 := by omega
    rcases this with rfl | rfl
    · exact ⟨104, by decide, by decide⟩
    · exact ⟨105, by decide, by decide⟩
  obtain ⟨mem', hrun, _, _, _, _, hcopy⟩ :=
    strcpy_copies_string [104, 105, 0, 9, 9, 9, 9, 9, 9] 0 4 2 3 hz (by decide) (by decide)
      (by decide)
  refine ⟨mem', hrun, ?_, hcopy 4 (by decide)⟩
  have h : strcpy 3 [104, 105, 0, 9, 9, 9, 9, 9, 9] 4 0
      = Outcome.done [104, 105, 0, 9, 104, 105, 0, 9, 9] := by decide
  rw [h] at hrun
  exact (Outcome.done.inj hrun).symm

/-! ## Dates -/

/-- C8: for all dates, `d1 < d2` exactly when the triple `(Year, Month, Day)` of
`d1` is lexicographically smaller than that of `d2`. -/
theorem Date.lt_iff_lex (d1 d2 : Date) :
    (Date.lt d1 d2 = true ↔
      toLex (d1.Year, toLex (d1.Month, d1.Day)) < toLex (d2.Year, toLex (d2.Month, d2.Day))) ∧
    (Date.lt d1 d2 = true ↔
      d1.Year < d2.Year ∨
        (d1.Year = d2.Year ∧
          (d1.Month < d2.Month ∨ (d1.Month = d2.Month ∧ d1.Day < d2.Day)))) := by
  have h2 : Date.lt d1 d2 = true ↔
      d1.Year < d2.Year ∨
        (d1.Year = d2.Year ∧
          (d1.Month < d2.Month ∨ (d1.Month = d2.Month ∧ d1.Day < d2.Day))) := by
    simp only [Date.lt, Bool.or_eq_true, Bool.and_eq_true, decide_eq_true_eq]
    tauto
  refine ⟨?_, h2⟩
  rw [h2, Prod.Lex.lt_iff]
  simp only [Prod.Lex.lt_iff]

/-! ## Swap -/

/-- C9: called with the addresses of two `int` variables (possibly the same
one), the pointer version of `swap` leaves the state that the reference version
leaves: the first variable holds the old value of the second, the second the old
value of the first, and no other variable changes. -/
theorem swapPtr_eq_swapRef (s : Store) (a b : Nat) :
    swapPtr s (some a) (some b) = Outcome.done (swapRef s a b) ∧
    swapRef s a b a = s b ∧ swapRef s a b b = s a ∧
    ∀ c, c ≠ a → c ≠ b → swapRef s a b c = s c := by
  refine ⟨rfl, ?_, ?_, ?_⟩
  · by_cases h : a = b
    · subst h
      simp [swapRef]
    · simp [swapRef, Function.update, h]
  · simp [swapRef]
  · intro c hca hcb
    simp [swapRef, Function.update, hca, hcb]

end HseCsProg
